import Mathlib

/-
Verification of the gemini VDI / font modules (src/vdi.rs, src/font.rs).

The Rust code is shallowly embedded:
  * the backbuffer `Vec<u8>` becomes `List Nat` (each entry a byte value);
  * u16/u8/usize arithmetic becomes Nat arithmetic; wherever the source
    performs a subtraction or an addition that can overflow its machine
    type (and would panic in a debug build), or indexes a slice, the
    embedding returns `none` to model the panic;
  * every drawing operation therefore has type `... → Option Surface`:
    `some s'` models normal completion with the mutated backbuffer,
    `none` models a panic.  Sequencing of fallible steps uses Option.bind.
Loops (`for _ in a..b`) are embedded as structural recursion on the
iteration count, mirroring the source's loop bodies statement by
statement.
-/

/-- Rust `u16::rotate_right`: rotate the low 16 bits right by `n` places.
Faithful for `p < 65536` (the u16 range); the result is always < 65536. -/
def rot16 (p n : Nat) : Nat :=
  ((p >>> (n % 16)) ||| (p <<< (16 - n % 16))) % 65536

/-- The SDL2Vdi surface state: `dimensions` and the `backbuffer` byte store.
(The SDL renderer/texture/window are external collaborators and carry no
state that the drawing operations read or write.) -/
structure Surface where
  width : Nat
  height : Nat
  backbuffer : List Nat
deriving DecidableEq

/-- Rust `vec[i] = v`: in-bounds write, or `none` for the panic. -/
def setChecked (l : List Nat) (i v : Nat) : Option (List Nat) :=
  if i < l.length then some (l.set i v) else none

/-- SDL2Vdi::new: the backbuffer is created with
`Vec::with_capacity(total_pixels)` and `resize(total_pixels, 0)`,
i.e. `width*height` zero bytes.  The SDL window/renderer/texture setup is
an external collaborator; a successful `new` yields exactly this state. -/
def newSurface (w h : Nat) : Surface :=
  ⟨w, h, List.replicate (w * h) 0⟩

/-- SDL2Vdi::draw_point (vdi.rs:316). -/
def drawPoint (s : Surface) (pt : Nat × Nat) (pen : Nat) : Option Surface :=
  if pt.1 ≥ s.width ∨ pt.2 ≥ s.height then some s
  else
    (setChecked s.backbuffer (pt.2 * s.width + pt.1)
        (if pen ≥ 128 then 255 else 0)).map
      (fun b => { s with backbuffer := b })

/-- SDL2Vdi::get_point (vdi.rs:332). -/
def getPoint (s : Surface) (pt : Nat × Nat) : Option Nat :=
  if pt.1 ≥ s.width ∨ pt.2 ≥ s.height then some 0
  else s.backbuffer[pt.2 * s.width + pt.1]?

/-- The fill loop of SDL2Vdi::hline (vdi.rs:403): write a pattern bit,
rotate the pattern right once, advance the offset. -/
def hlineLoop (buf : List Nat) (off p : Nat) : Nat → Option (List Nat)
  | 0 => some buf
  | n + 1 =>
    (setChecked buf off (if p &&& 1 ≠ 0 then 255 else 0)).bind
      (fun b => hlineLoop b (off + 1) (rot16 p 1) n)

/-- SDL2Vdi::hline (vdi.rs:379): swap endpoints if reversed, clamp both to
`width`, pre-rotate the pattern by `left & 15`, then run the fill loop.
The row coordinate `y` is never checked against `height`. -/
def hline (s : Surface) (pt : Nat × Nat) (tox p : Nat) : Option Surface :=
  let w := s.width
  let l1 := if pt.1 ≥ tox then tox else pt.1
  let r1 := if pt.1 ≥ tox then pt.1 else tox
  let l2 := if l1 ≥ w then w else l1
  let r2 := if r1 ≥ w then w else r1
  (hlineLoop s.backbuffer (pt.2 * w + l2) (rot16 p (l2 &&& 15)) (r2 - l2)).map
    (fun b => { s with backbuffer := b })

/-- The fill loop of SDL2Vdi::vline (vdi.rs:437): like hlineLoop but the
offset advances by a whole row each step. -/
def vlineLoop (buf : List Nat) (off w p : Nat) : Nat → Option (List Nat)
  | 0 => some buf
  | n + 1 =>
    (setChecked buf off (if p &&& 1 ≠ 0 then 255 else 0)).bind
      (fun b => vlineLoop b (off + w) w (rot16 p 1) n)

/-- SDL2Vdi::vline (vdi.rs:410): whole call is a no-op when the column is
off-surface; otherwise swap/clamp the vertical endpoints and fill. -/
def vline (s : Surface) (pt : Nat × Nat) (tox p : Nat) : Option Surface :=
  let w := s.width
  let h := s.height
  if pt.1 ≥ w then some s
  else
    let t1 := if pt.2 ≥ tox then tox else pt.2
    let b1 := if pt.2 ≥ tox then pt.2 else tox
    let t2 := if t1 ≥ h then h else t1
    let b2 := if b1 ≥ h then h else b1
    (vlineLoop s.backbuffer (t2 * w + pt.1) w (rot16 p (t2 &&& 15)) (b2 - t2)).map
      (fun b => { s with backbuffer := b })

/-- The row loop of SDL2Vdi::rect (vdi.rs:452): one hline per row, with
pattern row `y & 15`.  The `[u16; 16]` pattern is modelled as a function
(indexing it with `y & 15 < 16` can never fail). -/
def rectRows (s : Surface) (ax tox : Nat) (pat : Nat → Nat) (y : Nat) :
    Nat → Option Surface
  | 0 => some s
  | n + 1 =>
    (hline s (ax, y) tox (pat (y &&& 15))).bind
      (fun s1 => rectRows s1 ax tox pat (y + 1) n)

/-- SDL2Vdi::rect (vdi.rs:444). -/
def rect (s : Surface) (pt pt2 : Nat × Nat) (pat : Nat → Nat) : Option Surface :=
  let t1 := if pt.2 ≥ pt2.2 then pt2.2 else pt.2
  let b1 := if pt.2 ≥ pt2.2 then pt.2 else pt2.2
  rectRows s pt.1 pt2.1 pat t1 (b1 - t1)

/-- SDL2Vdi::frame (vdi.rs:457): normalize both axes (strict `>` swaps),
then two hlines and two vlines.  `bottom - 1` and `right - 1` are u16
subtractions: they panic (none) when the normalized bottom or right is 0. -/
def frame (s : Surface) (pt pt2 : Nat × Nat) (p : Nat) : Option Surface :=
  let l := if pt.1 > pt2.1 then pt2.1 else pt.1
  let r := if pt.1 > pt2.1 then pt.1 else pt2.1
  let t := if pt.2 > pt2.2 then pt2.2 else pt.2
  let b := if pt.2 > pt2.2 then pt.2 else pt2.2
  (hline s (l, t) r p).bind (fun s1 =>
    if b = 0 then none
    else (hline s1 (l, b - 1) r p).bind (fun s2 =>
      (vline s2 (l, t) b p).bind (fun s3 =>
        if r = 0 then none
        else vline s3 (r - 1, t) b p)))

/-- The loop of SDL2Vdi::invert_line (vdi.rs:499): XOR each byte with 0xFF. -/
def invertLoop (buf : List Nat) (off : Nat) : Nat → Option (List Nat)
  | 0 => some buf
  | n + 1 =>
    (buf[off]?).bind
      (fun v => invertLoop (buf.set off (v ^^^ 255)) (off + 1) n)

/-- SDL2Vdi::invert_line (vdi.rs:477): same endpoint normalization and
clamping as hline; the row coordinate is never checked against `height`. -/
def invertLine (s : Surface) (pt : Nat × Nat) (tox : Nat) : Option Surface :=
  let w := s.width
  let l1 := if pt.1 ≥ tox then tox else pt.1
  let r1 := if pt.1 ≥ tox then pt.1 else tox
  let l2 := if l1 ≥ w then w else l1
  let r2 := if r1 ≥ w then w else r1
  (invertLoop s.backbuffer (pt.2 * w + l2) (r2 - l2)).map
    (fun b => { s with backbuffer := b })

/-- The row loop of SDL2Vdi::invert_rect (vdi.rs:513). -/
def invertRows (s : Surface) (ax tox y : Nat) : Nat → Option Surface
  | 0 => some s
  | n + 1 =>
    (invertLine s (ax, y) tox).bind
      (fun s1 => invertRows s1 ax tox (y + 1) n)

/-- SDL2Vdi::invert_rect (vdi.rs:505). -/
def invertRect (s : Surface) (pt pt2 : Nat × Nat) : Option Surface :=
  let t1 := if pt.2 ≥ pt2.2 then pt2.2 else pt.2
  let b1 := if pt.2 ≥ pt2.2 then pt.2 else pt2.2
  invertRows s pt.1 pt2.1 t1 (b1 - t1)

/-- The `pens` table of SDL2Vdi::copy_line (vdi.rs:530):
`pens[i] = if function & (1 << i) == 0 { 0 } else { 255 }`. -/
def pens (f i : Nat) : Nat :=
  if f &&& (1 <<< i) = 0 then 0 else 255

/-- The lookup index of SDL2Vdi::copy_line (vdi.rs:555):
`index = (src_word & 1) | (backbuf[doffset] & 2)` — bit 0 of the index is
the source bit, bit 1 is bit 1 of the stored destination byte. -/
def combineIndex (srcWord dstByte : Nat) : Nat :=
  (srcWord &&& 1) ||| (dstByte &&& 2)

/-- The pen byte copy_line writes for a given current source word and
stored destination byte. -/
def copyPen (f srcWord dstByte : Nat) : Nat :=
  pens f (combineIndex srcWord dstByte)

/-- The copy loop of SDL2Vdi::copy_line (vdi.rs:554): write the combined
pen, step the intra-word bit index, refill the source word from the next
u16 when the index wraps, and break after finishing the last source word.
Returns the new buffer together with the number of loop iterations
executed (pixels written). -/
def copyLoop (bits : List Nat) (f : Nat) :
    Nat → Nat → Nat → List Nat → Nat → Nat → Option (List Nat × Nat)
  | _, _, _, buf, _, 0 => some (buf, 0)
  | so, ix, w, buf, d, n + 1 =>
    (buf[d]?).bind (fun db =>
      let buf1 := buf.set d (copyPen f w db)
      if ix = 15 then
        if so + 1 = bits.length then some (buf1, 1)
        else
          (bits[so + 1]?).bind (fun nw =>
            (copyLoop bits f (so + 1) 0 nw buf1 (d + 1) n).map
              (fun r => (r.1, r.2 + 1)))
      else
        (copyLoop bits f so (ix + 1) (w >>> 1) buf1 (d + 1) n).map
          (fun r => (r.1, r.2 + 1)))

/-- SDL2Vdi::copy_line (vdi.rs:518), little-endian bit order, returning
both the mutated surface and the number of pixels written (the number of
iterations the source's copy loop executed).  `none` models a panic:
the initial `from_bits[soffset]` read out of bounds, the usize
subtraction `src_width - src_left` underflowing, the u16 subtraction
`dimensions.0 - to.0` underflowing, or a backbuffer write out of bounds. -/
def copyLineRun (s : Surface) (src : Nat × Nat) (srcWidth : Nat)
    (bits : List Nat) (dst : Nat × Nat) (width f : Nat) :
    Option (Surface × Nat) :=
  let stride := (srcWidth + 15) / 16
  let so0 := src.2 * stride + src.1 / 16
  (bits[so0]?).bind (fun w0 =>
    let ix0 := src.1 &&& 15
    if src.1 > srcWidth then none
    else
      let srcAdj := min width (srcWidth - src.1)
      if dst.1 > s.width then none
      else
        let d0 := dst.2 * s.width + dst.1
        let dstAdj := min width (s.width - dst.1)
        (copyLoop bits f so0 ix0 (w0 >>> ix0) s.backbuffer d0
            (min srcAdj dstAdj)).map
          (fun r => ({ s with backbuffer := r.1 }, r.2)))

/-- SDL2Vdi::copy_line, surface result only. -/
def copyLine (s : Surface) (src : Nat × Nat) (srcWidth : Nat)
    (bits : List Nat) (dst : Nat × Nat) (width f : Nat) : Option Surface :=
  (copyLineRun s src srcWidth bits dst width f).map Prod.fst

/-- The pen byte copy_line_big_endian writes (vdi.rs:610): the source bit
is taken from bit 15 of the current word. -/
def copyPenBE (f srcWord dstByte : Nat) : Nat :=
  pens f (((srcWord &&& 32768) >>> 15) ||| (dstByte &&& 2))

/-- The copy loop of SDL2Vdi::copy_line_big_endian (vdi.rs:609): as
copyLoop but testing bit 15 and shifting the u16 source word left
(truncating to 16 bits, as Rust `u16 <<` does). -/
def copyLoopBE (bits : List Nat) (f : Nat) :
    Nat → Nat → Nat → List Nat → Nat → Nat → Option (List Nat × Nat)
  | _, _, _, buf, _, 0 => some (buf, 0)
  | so, ix, w, buf, d, n + 1 =>
    (buf[d]?).bind (fun db =>
      let buf1 := buf.set d (copyPenBE f w db)
      if ix = 15 then
        if so + 1 = bits.length then some (buf1, 1)
        else
          (bits[so + 1]?).bind (fun nw =>
            (copyLoopBE bits f (so + 1) 0 nw buf1 (d + 1) n).map
              (fun r => (r.1, r.2 + 1)))
      else
        (copyLoopBE bits f so (ix + 1) ((w <<< 1) % 65536) buf1 (d + 1) n).map
          (fun r => (r.1, r.2 + 1)))

/-- SDL2Vdi::copy_line_big_endian (vdi.rs:573). -/
def copyLineBE (s : Surface) (src : Nat × Nat) (srcWidth : Nat)
    (bits : List Nat) (dst : Nat × Nat) (width f : Nat) : Option Surface :=
  let stride := (srcWidth + 15) / 16
  let so0 := src.2 * stride + src.1 / 16
  (bits[so0]?).bind (fun w0 =>
    let ix0 := src.1 &&& 15
    if src.1 > srcWidth then none
    else
      let srcAdj := min width (srcWidth - src.1)
      if dst.1 > s.width then none
      else
        let d0 := dst.2 * s.width + dst.1
        let dstAdj := min width (s.width - dst.1)
        (copyLoopBE bits f so0 ix0 ((w0 <<< ix0) % 65536) s.backbuffer d0
            (min srcAdj dstAdj)).map
          (fun r => { s with backbuffer := r.1 }))

/-- The row loop of SDL2Vdi::copy_rect_big_endian (vdi.rs:677). -/
def copyRectRowsBE (s : Surface) (sx sy srcWidth : Nat) (bits : List Nat)
    (dx dy w f y : Nat) : Nat → Option Surface
  | 0 => some s
  | n + 1 =>
    (copyLineBE s (sx, sy + y) srcWidth bits (dx, dy + y) w f).bind
      (fun s1 => copyRectRowsBE s1 sx sy srcWidth bits dx dy w f (y + 1) n)

/-- SDL2Vdi::copy_rect_big_endian (vdi.rs:657): no-op when the destination
origin is off-surface, otherwise clamp the row count to the bottom edge
and copy row by row.  `to.1 + dimensions.1` is a u16 addition (checked). -/
def copyRectBE (s : Surface) (src : Nat × Nat) (srcWidth : Nat)
    (bits : List Nat) (dst : Nat × Nat) (dims : Nat × Nat) (f : Nat) :
    Option Surface :=
  if dst.1 ≥ s.width then some s
  else if dst.2 ≥ s.height then some s
  else if dst.2 + dims.2 > 65535 then none
  else
    let adjustedBottom := min (dst.2 + dims.2) s.height
    copyRectRowsBE s src.1 src.2 srcWidth bits dst.1 dst.2 dims.1 f 0
      (adjustedBottom - dst.2)

/-- Font resource (font.rs:5): a packed one-row glyph sheet plus the
left-edge offset table and shared vertical metrics. -/
structure Font where
  bits : List Nat
  leftEdges : List Nat
  width : Nat
  ascender : Nat
  height : Nat
deriving DecidableEq

/-- TextContext state (font.rs:14), minus the borrowed surface, which the
operations receive explicitly. -/
structure TextContext where
  font : Font
  left : Nat
  baseline : Nat
  strikeFn : Nat
  leftMargin : Nat
  rightMargin : Nat
  topMargin : Nat
  bottomMargin : Nat
deriving DecidableEq

/-- TextContext::get_real_size (font.rs:32).  `chr` is a u8 (0..=255);
`chr + 1` is computed in u8 arithmetic and overflows for `chr = 255`
(debug panic, modelled as none); `chr_right - chr_left` is a u16
subtraction (checked).  The function reads only; no state mutates. -/
def getRealSize (font : Font) (chr : Nat) : Option (Nat × Nat × Nat) :=
  (font.leftEdges[chr]?).bind (fun chrLeft =>
    if chr + 1 > 255 then none
    else
      (font.leftEdges[chr + 1]?).bind (fun chrRight =>
        if chrRight < chrLeft then none
        else some (chrRight - chrLeft, font.height, font.ascender)))

/-- TextContext::simple_put_char (font.rs:43).  Returns the updated
context and surface.  Both clipped-empty checks `return` with nothing
drawn and `left` unchanged.  Checked machine arithmetic:
`baseline - ascender` (u16 sub), `vdi_top + height` (u16 add),
`chr + 1` (u8 add), `chr_right - chr_left` (u16 sub),
`left + chr_width` (u16 add), `chr_left + delta_x` (u16 add). -/
def simplePutChar (tc : TextContext) (s : Surface) (chr : Nat) :
    Option (TextContext × Surface) :=
  (tc.font.leftEdges[chr]?).bind (fun chrLeft =>
    if tc.baseline < tc.font.ascender then none
    else
      let vdiTop := tc.baseline - tc.font.ascender
      let vdiTopClipped := max vdiTop tc.topMargin
      let chrTopClipped := vdiTopClipped - vdiTop
      if vdiTop + tc.font.height > 65535 then none
      else
        let vdiBottom := vdiTop + tc.font.height
        let vdiBottomClipped := min tc.bottomMargin vdiBottom
        if vdiTopClipped ≥ vdiBottomClipped then some (tc, s)
        else
          let chrHeightClipped := vdiBottomClipped - vdiTopClipped
          if chr + 1 > 255 then none
          else
            (tc.font.leftEdges[chr + 1]?).bind (fun chrRight =>
              if chrRight < chrLeft then none
              else
                let chrWidth := chrRight - chrLeft
                let vdiLeftClipped := max tc.leftMargin tc.left
                if tc.left + chrWidth > 65535 then none
                else
                  let vdiRightClipped := min tc.rightMargin (tc.left + chrWidth)
                  if vdiLeftClipped ≥ vdiRightClipped then some (tc, s)
                  else
                    let deltaX := vdiLeftClipped - tc.left
                    if chrLeft + deltaX > 65535 then none
                    else
                      let chrWidthClipped :=
                        min chrWidth (vdiRightClipped - vdiLeftClipped)
                      (copyRectBE s (chrLeft + deltaX, chrTopClipped)
                          tc.font.width tc.font.bits
                          (vdiLeftClipped, vdiTopClipped)
                          (chrWidthClipped, chrHeightClipped) tc.strikeFn).map
                        (fun s1 =>
                          ({ tc with left := tc.left + chrWidth }, s1))))

/-- Modelled from the spec sentence for claim C3: a truth table
"indexed by (S shl 1 or D_bit)", i.e. pen 255 exactly when bit
`2*S + D_bit` of `function` is set.  This is the SPEC's reading, kept
separate from the source-derived `copyPen` so the two can be compared. -/
def specIndexPen (f sBit dBit : Nat) : Nat :=
  if f.testBit (2 * sBit + dBit) then 255 else 0

/-- Scenario-C font for claim C4: 256 glyphs, glyph i at columns
[8i, 8i+8), so left_edges is the 257-entry table 0, 8, ..., 2048. -/
def scenCFont : Font :=
  { bits := [], leftEdges := (List.range 257).map (fun i => 8 * i),
    width := 2048, ascender := 7, height := 8 }

/-- All stored bytes are ink (0) or paper (255). -/
def twoTone (l : List Nat) : Prop :=
  ∀ x ∈ l, x = 0 ∨ x = 255

/- ===================== helper lemmas ===================== -/

theorem setChecked_eq_some {l : List Nat} {i v : Nat} {b : List Nat}
    (h : setChecked l i v = some b) : i < l.length ∧ b = l.set i v := by
  unfold setChecked at h
  split at h
  · injection h with h
    exact ⟨‹_›, h.symm⟩
  · exact Option.noConfusion h

theorem and15_eq_mod (x : Nat) : x &&& 15 = x % 16 := by
  have h16 : (16 : Nat) = 2 ^ 4 := by norm_num
  apply Nat.eq_of_testBit_eq
  intro i
  rw [Nat.testBit_and, h16, Nat.testBit_mod_two_pow]
  by_cases h : i < 4
  · have h15 : (15 : Nat).testBit i = true := by
      interval_cases i <;> decide
    simp [h15, h]
  · have h15 : (15 : Nat).testBit i = false := by
      apply Nat.testBit_lt_two_pow
      calc (15 : Nat) < 2 ^ 4 := by norm_num
        _ ≤ 2 ^ i := Nat.pow_le_pow_right (by norm_num) (by omega)
    simp [h15, h]

theorem and_one_eq_toNat (x : Nat) : x &&& 1 = (x.testBit 0).toNat := by
  rw [Nat.and_one_is_mod, Nat.testBit_zero]
  rcases Nat.mod_two_eq_zero_or_one x with h | h <;> simp [h]

theorem and_two_eq_toNat (x : Nat) : x &&& 2 = 2 * (x.testBit 1).toNat := by
  have h := Nat.and_two_pow x 1
  norm_num at h
  rw [h, Nat.mul_comm]

theorem pens_eq_testBit (f i : Nat) : pens f i = if f.testBit i then 255 else 0 := by
  unfold pens
  rw [Nat.shiftLeft_eq, Nat.one_mul, Nat.and_two_pow]
  cases h : f.testBit i <;> simp [h]

theorem rot16_lt (p n : Nat) : rot16 p n < 65536 :=
  Nat.mod_lt _ (by norm_num)

theorem rot16_testBit (p n i : Nat) (hp : p < 65536) :
    (rot16 p n).testBit i = (decide (i < 16) && p.testBit ((i + n) % 16)) := by
  have h2 : (65536 : Nat) = 2 ^ 16 := by norm_num
  unfold rot16
  rw [h2, Nat.testBit_mod_two_pow, Nat.testBit_lor, Nat.testBit_shiftRight,
    Nat.testBit_shiftLeft]
  by_cases hi : i < 16
  · by_cases hlow : n % 16 + i < 16
    · have hd : ¬ (i ≥ 16 - n % 16) := by omega
      have hmod : (i + n) % 16 = n % 16 + i := by omega
      simp [hi, hd, hmod]
    · have hbig : p.testBit (n % 16 + i) = false := by
        apply Nat.testBit_lt_two_pow
        calc p < 65536 := hp
          _ = 2 ^ 16 := h2
          _ ≤ 2 ^ (n % 16 + i) := Nat.pow_le_pow_right (by norm_num) (by omega)
      have hd : i ≥ 16 - n % 16 := by omega
      have hmod : i - (16 - n % 16) = (i + n) % 16 := by omega
      simp [hi, hd, hbig, hmod]
  · simp [hi]

theorem rot16_zero_eq_mod (p : Nat) : rot16 p 0 = p % 65536 := by
  have h2 : (65536 : Nat) = 2 ^ 16 := by norm_num
  apply Nat.eq_of_testBit_eq
  intro i
  unfold rot16
  rw [h2, Nat.testBit_mod_two_pow, Nat.testBit_mod_two_pow, Nat.testBit_lor,
    Nat.testBit_shiftRight, Nat.testBit_shiftLeft]
  by_cases hi : i < 16
  · have hd : ¬ (i ≥ 16 - 0 % 16) := by omega
    have h0 : 0 % 16 + i = i := by omega
    simp [hi, hd, h0]
  · simp [hi]

theorem rot16_zero (p : Nat) (hp : p < 65536) : rot16 p 0 = p := by
  rw [rot16_zero_eq_mod, Nat.mod_eq_of_lt hp]

theorem rot16_add (p a b : Nat) (hp : p < 65536) :
    rot16 (rot16 p a) b = rot16 p (a + b) := by
  apply Nat.eq_of_testBit_eq
  intro i
  rw [rot16_testBit _ _ _ (rot16_lt p a), rot16_testBit _ _ _ hp,
    rot16_testBit _ _ _ hp]
  by_cases hi : i < 16
  · have h1 : (i + b) % 16 < 16 := Nat.mod_lt _ (by norm_num)
    have e1 : decide (i < 16) = true := by simpa using hi
    have e2 : decide ((i + b) % 16 < 16) = true := by simpa using h1
    rw [e1, e2, Bool.true_and, Bool.true_and, Bool.true_and]
    have hidx : ((i + b) % 16 + a) % 16 = (i + (a + b)) % 16 := by omega
    rw [hidx]
  · have e1 : decide (i < 16) = false := by simpa using hi
    rw [e1]
    simp

theorem rot16_sixteen (p : Nat) (hp : p < 65536) : rot16 p 16 = p := by
  apply Nat.eq_of_testBit_eq
  intro i
  rw [rot16_testBit _ _ _ hp]
  by_cases hi : i < 16
  · have hmod : (i + 16) % 16 = i := by omega
    simp [hi, hmod]
  · have hbig : p.testBit i = false := by
      apply Nat.testBit_lt_two_pow
      calc p < 65536 := hp
        _ = 2 ^ 16 := by norm_num
        _ ≤ 2 ^ i := Nat.pow_le_pow_right (by norm_num) (by omega)
    simp [hi, hbig]

theorem rot16_and_one (p n : Nat) (hp : p < 65536) :
    rot16 p n &&& 1 = (p.testBit (n % 16)).toNat := by
  rw [and_one_eq_toNat]
  have h := rot16_testBit p n 0 hp
  have h0 : (0 + n) % 16 = n % 16 := by omega
  rw [h0] at h
  simp only [show decide ((0 : Nat) < 16) = true from rfl, Bool.true_and] at h
  rw [h]

theorem if_ge_eq_min (a b : Nat) : (if a ≥ b then b else a) = min a b := by
  split <;> omega

theorem if_ge_eq_max (a b : Nat) : (if a ≥ b then a else b) = max a b := by
  split <;> omega

theorem hlineLoop_split (m k : Nat) :
    ∀ (buf : List Nat) (off p : Nat), p < 65536 →
      hlineLoop buf off p (m + k) =
        (hlineLoop buf off p m).bind
          (fun b => hlineLoop b (off + m) (rot16 p m) k) := by
  induction m with
  | zero =>
    intro buf off p hp
    simp [hlineLoop, rot16_zero p hp]
  | succ m ih =>
    intro buf off p hp
    have heq : m + 1 + k = (m + k) + 1 := by omega
    rw [heq]
    simp only [hlineLoop]
    cases hset : setChecked buf off (if p &&& 1 ≠ 0 then 255 else 0) with
    | none => simp
    | some b1 =>
      simp only [Option.some_bind]
      rw [ih b1 (off + 1) (rot16 p 1) (rot16_lt p 1)]
      have h1 : rot16 (rot16 p 1) m = rot16 p (m + 1) := by
        rw [rot16_add p 1 m hp, Nat.add_comm 1 m]
      have h2 : off + 1 + m = off + (m + 1) := by omega
      rw [h1, h2]

theorem hlineLoop_length (n : Nat) :
    ∀ (buf : List Nat) (off p : Nat) (b : List Nat),
      hlineLoop buf off p n = some b → b.length = buf.length := by
  induction n with
  | zero =>
    intro buf off p b h
    simp only [hlineLoop] at h
    injection h with h
    rw [← h]
  | succ n ih =>
    intro buf off p b h
    simp only [hlineLoop] at h
    cases hset : setChecked buf off (if p &&& 1 ≠ 0 then 255 else 0) with
    | none => rw [hset] at h; exact Option.noConfusion h
    | some b1 =>
      rw [hset] at h
      simp only [Option.some_bind] at h
      obtain ⟨hlt, hb1⟩ := setChecked_eq_some hset
      have hlen := ih _ _ _ _ h
      rw [hlen, hb1, List.length_set]

theorem hlineLoop_get (n : Nat) :
    ∀ (buf : List Nat) (off p : Nat) (b : List Nat), p < 65536 →
      hlineLoop buf off p n = some b →
      ∀ q, b[q]? =
        if off ≤ q ∧ q < off + n
        then some (if (rot16 p (q - off)) &&& 1 ≠ 0 then 255 else 0)
        else buf[q]? := by
  induction n with
  | zero =>
    intro buf off p b hp h q
    simp only [hlineLoop] at h
    injection h with h
    have hnot : ¬ (off ≤ q ∧ q < off + 0) := by omega
    rw [if_neg hnot, ← h]
  | succ n ih =>
    intro buf off p b hp h q
    simp only [hlineLoop] at h
    cases hset : setChecked buf off (if p &&& 1 ≠ 0 then 255 else 0) with
    | none => rw [hset] at h; exact Option.noConfusion h
    | some b1 =>
      rw [hset] at h
      simp only [Option.some_bind] at h
      obtain ⟨hlt, hb1⟩ := setChecked_eq_some hset
      subst hb1
      have hrec := ih _ _ _ _ (rot16_lt p 1) h q
      by_cases hq : off ≤ q ∧ q < off + (n + 1)
      · by_cases hq0 : q = off
        · have hnot : ¬ (off + 1 ≤ q ∧ q < off + 1 + n) := by omega
          rw [hrec, if_neg hnot, hq0, List.getElem?_set, if_pos rfl, if_pos hlt,
            if_pos (show off ≤ off ∧ off < off + (n + 1) by omega)]
          have hsub : off - off = 0 := by omega
          rw [hsub, rot16_zero p hp]
        · have hin : off + 1 ≤ q ∧ q < off + 1 + n := by omega
          rw [hrec, if_pos hin, if_pos hq]
          have h1 : rot16 (rot16 p 1) (q - (off + 1)) = rot16 p (q - off) := by
            rw [rot16_add p 1 _ hp]
            congr 1
            omega
          rw [h1]
      · have hnot : ¬ (off + 1 ≤ q ∧ q < off + 1 + n) := by omega
        rw [hrec, if_neg hnot, if_neg hq, List.getElem?_set,
          if_neg (by omega : ¬ off = q)]

theorem hline_eq (s : Surface) (x0 y tox P : Nat) :
    hline s (x0, y) tox P =
      (hlineLoop s.backbuffer (y * s.width + min (min x0 tox) s.width)
          (rot16 P (min (min x0 tox) s.width &&& 15))
          (min (max x0 tox) s.width - min (min x0 tox) s.width)).map
        (fun b => { s with backbuffer := b }) := by
  simp only [hline, if_ge_eq_min, if_ge_eq_max]

/- ===================== claims ===================== -/

/-- Claim C2 (code_bug): the claim says no drawing operation can fail for
any input, but hline and invert_line never clip or check the row
coordinate `y` against the surface height; a call with `y ≥ height` and a
nonempty clipped column range indexes the backbuffer out of bounds, which
panics in Rust (every build mode).  Failing input: a 4x4 surface with
`hline((0,5), 2, pattern)` / `invert_line((0,5), 2)` — the write offset is
`5*4+0 = 20 ≥ 16`. -/
theorem c2_out_of_row_panics :
    hline ⟨4, 4, List.replicate 16 0⟩ (0, 5) 2 65535 = none ∧
    invertLine ⟨4, 4, List.replicate 16 0⟩ (0, 5) 2 = none := by
  constructor <;> rfl

set_option maxRecDepth 4000 in
/-- Claim C4 (code_bug): `get_real_size` computes `chr + 1` in u8
arithmetic, which overflows for glyph index 255 (panic in a debug build;
in release it wraps to index 0 and the u16 width subtraction underflows),
so the claimed width-8 result fails at i = 255 even though the 257-entry
left_edges table exists precisely to give the last glyph a width.  For
every other index of the scenario-C font the claimed (8, height,
ascender) triple is returned, with no state mutated (the embedding is a
pure function of the font). -/
theorem c4_glyph255_overflow :
    getRealSize scenCFont 255 = none ∧
    getRealSize scenCFont 0 = some (8, 8, 7) ∧
    getRealSize scenCFont 254 = some (8, 8, 7) := by
  refine ⟨?_, rfl, rfl⟩
  rfl

/-- Claim C6 (confirmed): the combine function is the 4-bit truth table
with bit 0 the (D=0,S=0) entry, bit 1 the (D=0,S=1) entry, bit 2 the
(D=1,S=0) entry and bit 3 the (D=1,S=1) entry, every entry resolving to
pen 0 or 255; `function = 0b1110` with source bit 1 yields 255 for every
destination byte, and `function = 0b0000` always yields 0.  The last two
conjuncts run copy_line itself over a word with source bits 1,1,0,0 and
destination pens 0,255,0,255. -/
theorem c6_truth_table :
    (∀ f : Nat, copyPen f 0 0 = if f.testBit 0 then 255 else 0) ∧
    (∀ f : Nat, copyPen f 1 0 = if f.testBit 1 then 255 else 0) ∧
    (∀ f : Nat, copyPen f 0 255 = if f.testBit 2 then 255 else 0) ∧
    (∀ f : Nat, copyPen f 1 255 = if f.testBit 3 then 255 else 0) ∧
    (∀ d : Nat, copyPen 14 1 d = 255) ∧
    (∀ srcW d : Nat, copyPen 0 srcW d = 0) ∧
    copyLine ⟨4, 1, [0, 255, 0, 255]⟩ (0, 0) 16 [3] (0, 0) 4 14 =
      some ⟨4, 1, [255, 255, 0, 255]⟩ ∧
    copyLine ⟨4, 1, [0, 255, 0, 255]⟩ (0, 0) 16 [3] (0, 0) 4 0 =
      some ⟨4, 1, [0, 0, 0, 0]⟩ := by
  refine ⟨?_, ?_, ?_, ?_, ?_, ?_, rfl, rfl⟩
  · intro f; exact pens_eq_testBit f 0
  · intro f; exact pens_eq_testBit f 1
  · intro f; exact pens_eq_testBit f 2
  · intro f; exact pens_eq_testBit f 3
  · intro d
    show pens 14 ((1 &&& 1) ||| (d &&& 2)) = 255
    rw [and_two_eq_toNat]
    cases d.testBit 1 <;> rfl
  · intro srcW d
    show pens 0 (combineIndex srcW d) = 0
    unfold pens
    simp

/-- Claim C3 (corrected), counterexample: the spec's table is indexed by
`(S shl 1 or D_bit)` with pen 255 iff bit `2*S + D_bit` of `function` is
set; the code indexes by `(src_word & 1) | (dst_byte & 2)`, i.e.
`(D_bit shl 1 or S)`.  For `function = 0b0010`, source bit 1,
destination byte 0, copy_line writes pen 255 while the spec's reading
predicts `specIndexPen 2 1 0 = 0` (bit 2 of 0b0010 is clear). -/
theorem c3_counterexample :
    copyLine ⟨1, 1, [0]⟩ (0, 0) 16 [1] (0, 0) 1 2 = some ⟨1, 1, [255]⟩ ∧
    specIndexPen 2 1 0 = 0 ∧ (255 : Nat) ≠ 0 := by
  refine ⟨rfl, ?_, by norm_num⟩
  rfl

/-- Claim C3 (corrected), amended: the lookup is indexed by
`(D_bit shl 1 or S)` — the pen written for source word `srcW` and stored
destination byte `d` is 255 exactly when bit `2*D_bit + S` of `function`
is set, where `S` is bit 0 of the source word and `D_bit` is bit 1 of the
stored destination byte. -/
theorem c3_amended_index_table (f srcW d : Nat) :
    copyPen f srcW d =
      if f.testBit (2 * (d.testBit 1).toNat + (srcW.testBit 0).toNat)
      then 255 else 0 := by
  show pens f ((srcW &&& 1) ||| (d &&& 2)) = _
  rw [pens_eq_testBit, and_one_eq_toNat, and_two_eq_toNat]
  cases hs : srcW.testBit 0 <;> cases hd : d.testBit 1 <;>
    norm_num [show (0 ||| 0 : Nat) = 0 from rfl, show (1 ||| 0 : Nat) = 1 from rfl,
      show (0 ||| 2 : Nat) = 2 from rfl, show (1 ||| 2 : Nat) = 3 from rfl]

/-- Claim C5 (corrected), counterexample: the claim says a copy whose
start already lies at or past the source bound (`from.x ≥ src_width`)
writes nothing and leaves the surface unchanged; but for
`from.x = src_width = 16` the initial `from_bits[soffset]` read uses
`soffset = 16/16 = 1`, out of bounds for a one-word source, so the call
panics instead of completing as a no-op. -/
theorem c5_counterexample :
    copyLine ⟨2, 2, [0, 0, 0, 0]⟩ (16, 0) 16 [0] (0, 0) 1 14 = none ∧
    copyLine ⟨2, 2, [0, 0, 0, 0]⟩ (16, 0) 16 [0] (0, 0) 1 14 ≠
      some ⟨2, 2, [0, 0, 0, 0]⟩ := by
  refine ⟨rfl, ?_⟩
  intro h
  rw [show copyLine ⟨2, 2, [0, 0, 0, 0]⟩ (16, 0) 16 [0] (0, 0) 1 14 = none
    from rfl] at h
  exact Option.noConfusion h

/-- Claim C10 (confirmed): SDL2Vdi::new zero-fills the width*height
backbuffer, and get_point returns 0 for every coordinate of the fresh
surface — out-of-bounds coordinates by the explicit guard, in-bounds ones
because every stored byte is 0. -/
theorem c10_new_surface_zero (w h x y : Nat) :
    getPoint (newSurface w h) (x, y) = some 0 := by
  unfold getPoint newSurface
  by_cases hc : x ≥ w ∨ y ≥ h
  · simp [hc]
  · push_neg at hc
    obtain ⟨hx, hy⟩ := hc
    have hidx : y * w + x < w * h := by
      calc y * w + x < y * w + w := by omega
        _ = (y + 1) * w := by ring
        _ ≤ h * w := Nat.mul_le_mul_right w hy
        _ = w * h := Nat.mul_comm h w
    simp only [not_or, not_le] at *
    simp [hx, hy, List.getElem?_replicate, hidx]

/-- Claim C8 (confirmed): hline pattern alignment is absolute.  First
conjunct: drawing `hline((0,y),16,P)` then `hline((16,y),32,P)` produces
exactly the same result (including the panic cases) as the single call
`hline((0,y),32,P)`, on every surface.  Second conjunct: in any completed
hline call, the pixel written at column x is `255` or `0` according to
bit `x mod 16` of the (u16) pattern, independent of the segment start. -/
theorem c8_hline_tiling :
    (∀ (s : Surface) (y P : Nat),
      (hline s (0, y) 16 P).bind (fun s1 => hline s1 (16, y) 32 P) =
        hline s (0, y) 32 P) ∧
    (∀ (s : Surface) (x0 y tox P : Nat) (s1 : Surface), P < 65536 →
      hline s (x0, y) tox P = some s1 →
      ∀ x, min (min x0 tox) s.width ≤ x → x < min (max x0 tox) s.width →
        s1.backbuffer[y * s.width + x]? =
          some (if P.testBit (x % 16) then 255 else 0)) := by
  constructor
  · intro s y P
    rw [hline_eq s 0 y 16 P, hline_eq s 0 y 32 P]
    have e1 : min (min 0 16) s.width = 0 := by omega
    have e2 : min (min 0 32) s.width = 0 := by omega
    have e3 : max 0 16 = 16 := by omega
    have e4 : max 0 32 = 32 := by omega
    rw [e1, e2, e3, e4, show (0 &&& 15 : Nat) = 0 from rfl, Nat.add_zero,
      Nat.sub_zero, Nat.sub_zero]
    have hp0 : rot16 P 0 < 65536 := rot16_lt P 0
    have hmk : min 16 s.width + (min 32 s.width - min 16 s.width) =
        min 32 s.width := by omega
    rw [← hmk, hlineLoop_split _ _ s.backbuffer _ _ hp0]
    cases h1 : hlineLoop s.backbuffer (y * s.width) (rot16 P 0)
        (min 16 s.width) with
    | none => simp
    | some b =>
      simp only [Option.map_some', Option.some_bind]
      rw [hline_eq]
      dsimp only
      have e5 : min (min 16 32) s.width = min 16 s.width := by omega
      have e6 : min (max 16 32) s.width = min 32 s.width := by omega
      rw [e5, e6]
      by_cases hw : 16 ≤ s.width
      · have hmin : min 16 s.width = 16 := by omega
        rw [hmin, show (16 &&& 15 : Nat) = 0 from rfl, rot16_sixteen _ hp0]
      · have hn : min 32 s.width - min 16 s.width = 0 := by omega
        rw [hn]
        simp [hlineLoop]
  · intro s x0 y tox P s1 hp h x hx1 hx2
    rw [hline_eq] at h
    cases hl : hlineLoop s.backbuffer (y * s.width + min (min x0 tox) s.width)
        (rot16 P (min (min x0 tox) s.width &&& 15))
        (min (max x0 tox) s.width - min (min x0 tox) s.width) with
    | none => rw [hl] at h; exact Option.noConfusion h
    | some b =>
      rw [hl] at h
      simp only [Option.map_some'] at h
      injection h with h
      have hb : s1.backbuffer = b := by rw [← h]
      have hget := hlineLoop_get _ _ _ _ _ (rot16_lt _ _) hl (y * s.width + x)
      have hlr : min (min x0 tox) s.width ≤ min (max x0 tox) s.width := by omega
      have hin : y * s.width + min (min x0 tox) s.width ≤ y * s.width + x ∧
          y * s.width + x < y * s.width + min (min x0 tox) s.width +
            (min (max x0 tox) s.width - min (min x0 tox) s.width) := by omega
      rw [hb, hget, if_pos hin]
      have hsub : (y * s.width + x) - (y * s.width + min (min x0 tox) s.width) =
          x - min (min x0 tox) s.width := by omega
      rw [hsub, rot16_add _ _ _ hp, rot16_and_one _ _ hp, and15_eq_mod]
      have hm : (min (min x0 tox) s.width % 16 +
          (x - min (min x0 tox) s.width)) % 16 = x % 16 := by omega
      rw [hm]
      cases hpb : P.testBit (x % 16) <;> simp [hpb]

/-- Witness for c8_hline_tiling: a concrete completed hline call
(pattern 2, segment [1,3) of a 4-wide row) whose written pixel at column
2 matches bit 2 of the pattern. -/
theorem c8_witness :
    (⟨4, 1, [7, 255, 0, 7]⟩ : Surface).backbuffer[0 * 4 + 2]? =
      some (if (2 : Nat).testBit (2 % 16) then 255 else 0) :=
  c8_hline_tiling.2 ⟨4, 1, [7, 7, 7, 7]⟩ 1 0 3 2 ⟨4, 1, [7, 255, 0, 7]⟩
    (by norm_num) (by decide) 2 (by decide) (by decide)

theorem invertLoop_length (n : Nat) :
    ∀ (buf : List Nat) (off : Nat) (b : List Nat),
      invertLoop buf off n = some b → b.length = buf.length := by
  induction n with
  | zero =>
    intro buf off b h
    simp only [invertLoop] at h
    injection h with h
    rw [← h]
  | succ n ih =>
    intro buf off b h
    simp only [invertLoop] at h
    cases hget : buf[off]? with
    | none => rw [hget] at h; exact Option.noConfusion h
    | some v =>
      rw [hget] at h
      simp only [Option.some_bind] at h
      have hlen := ih _ _ _ h
      rw [hlen, List.length_set]

theorem invertLoop_get (n : Nat) :
    ∀ (buf : List Nat) (off : Nat) (b : List Nat),
      invertLoop buf off n = some b →
      ∀ q, b[q]? =
        if off ≤ q ∧ q < off + n
        then (buf[q]?).map (fun v => v ^^^ 255)
        else buf[q]? := by
  induction n with
  | zero =>
    intro buf off b h q
    simp only [invertLoop] at h
    injection h with h
    have hnot : ¬ (off ≤ q ∧ q < off + 0) := by omega
    rw [if_neg hnot, ← h]
  | succ n ih =>
    intro buf off b h q
    simp only [invertLoop] at h
    cases hget : buf[off]? with
    | none => rw [hget] at h; exact Option.noConfusion h
    | some v =>
      rw [hget] at h
      simp only [Option.some_bind] at h
      obtain ⟨hlt, hv⟩ := List.getElem?_eq_some.mp hget
      have hrec := ih _ _ _ h q
      by_cases hq : off ≤ q ∧ q < off + (n + 1)
      · by_cases hq0 : q = off
        · have hnot : ¬ (off + 1 ≤ q ∧ q < off + 1 + n) := by omega
          rw [hrec, if_neg hnot, hq0, List.getElem?_set, if_pos rfl, if_pos hlt,
            if_pos (show off ≤ off ∧ off < off + (n + 1) by omega), hget]
          rfl
        · have hin : off + 1 ≤ q ∧ q < off + 1 + n := by omega
          rw [hrec, if_pos hin, if_pos hq, List.getElem?_set,
            if_neg (show ¬ off = q by omega)]
      · have hnot : ¬ (off + 1 ≤ q ∧ q < off + 1 + n) := by omega
        rw [hrec, if_neg hnot, if_neg hq, List.getElem?_set,
          if_neg (show ¬ off = q by omega)]

theorem invertLine_eq (s : Surface) (ax y tox : Nat) :
    invertLine s (ax, y) tox =
      (invertLoop s.backbuffer (y * s.width + min (min ax tox) s.width)
          (min (max ax tox) s.width - min (min ax tox) s.width)).map
        (fun b => { s with backbuffer := b }) := by
  simp only [invertLine, if_ge_eq_min, if_ge_eq_max]

theorem invertLine_some (s : Surface) (ax y tox : Nat) (s1 : Surface)
    (h : invertLine s (ax, y) tox = some s1) :
    s1.width = s.width ∧ s1.height = s.height ∧
    s1.backbuffer.length = s.backbuffer.length ∧
    ∀ q, s1.backbuffer[q]? =
      if y * s.width + min (min ax tox) s.width ≤ q ∧
         q < y * s.width + min (max ax tox) s.width
      then (s.backbuffer[q]?).map (fun v => v ^^^ 255)
      else s.backbuffer[q]? := by
  rw [invertLine_eq] at h
  cases hl : invertLoop s.backbuffer (y * s.width + min (min ax tox) s.width)
      (min (max ax tox) s.width - min (min ax tox) s.width) with
  | none => rw [hl] at h; exact Option.noConfusion h
  | some b =>
    rw [hl] at h
    simp only [Option.map_some'] at h
    injection h with h
    subst h
    refine ⟨rfl, rfl, invertLoop_length _ _ _ _ hl, ?_⟩
    intro q
    have hget := invertLoop_get _ _ _ _ hl q
    have hlr : min (min ax tox) s.width ≤ min (max ax tox) s.width := by omega
    have hb : y * s.width + min (min ax tox) s.width +
        (min (max ax tox) s.width - min (min ax tox) s.width) =
        y * s.width + min (max ax tox) s.width := by omega
    rw [hb] at hget
    exact hget

theorem invertRows_some (n : Nat) :
    ∀ (s : Surface) (ax tox y : Nat) (s1 : Surface),
      invertRows s ax tox y n = some s1 →
      s1.width = s.width ∧ s1.height = s.height ∧
      s1.backbuffer.length = s.backbuffer.length ∧
      ∀ q,
        ((∃ i, i < n ∧ (y + i) * s.width + min (min ax tox) s.width ≤ q ∧
            q < (y + i) * s.width + min (max ax tox) s.width) →
          s1.backbuffer[q]? = (s.backbuffer[q]?).map (fun v => v ^^^ 255)) ∧
        ((∀ i, i < n → ¬ ((y + i) * s.width + min (min ax tox) s.width ≤ q ∧
            q < (y + i) * s.width + min (max ax tox) s.width)) →
          s1.backbuffer[q]? = s.backbuffer[q]?) := by
  induction n with
  | zero =>
    intro s ax tox y s1 h
    simp only [invertRows] at h
    injection h with h
    subst h
    refine ⟨rfl, rfl, rfl, ?_⟩
    intro q
    constructor
    · rintro ⟨i, hi, -⟩
      omega
    · intro
      rfl
  | succ n ih =>
    intro s ax tox y s1 h
    simp only [invertRows] at h
    cases h1 : invertLine s (ax, y) tox with
    | none => rw [h1] at h; exact Option.noConfusion h
    | some sm =>
      rw [h1] at h
      simp only [Option.some_bind] at h
      obtain ⟨hw1, hh1, hlen1, hq1⟩ := invertLine_some _ _ _ _ _ h1
      obtain ⟨hw2, hh2, hlen2, hq2⟩ := ih _ _ _ _ _ h
      rw [hw1] at hq2
      refine ⟨hw2.trans hw1, hh2.trans hh1, hlen2.trans hlen1, ?_⟩
      intro q
      have hr2w : min (max ax tox) s.width ≤ s.width := by omega
      have hrow : y * s.width + s.width = (y + 1) * s.width := by ring
      constructor
      · rintro ⟨i, hi, hlo, hhi⟩
        cases i with
        | zero =>
          simp only [Nat.add_zero] at hlo hhi
          have hnone : ∀ j, j < n →
              ¬ ((y + 1 + j) * s.width + min (min ax tox) s.width ≤ q ∧
                q < (y + 1 + j) * s.width + min (max ax tox) s.width) := by
            intro j hj hmem
            have h2' : (y + 1) * s.width ≤ (y + 1 + j) * s.width :=
              Nat.mul_le_mul_right _ (by omega)
            omega
          have hs1q := (hq2 q).2 hnone
          rw [hs1q, hq1 q, if_pos ⟨hlo, hhi⟩]
        | succ j =>
          have he : y + (j + 1) = y + 1 + j := by omega
          rw [he] at hlo hhi
          have hnotrow : ¬ (y * s.width + min (min ax tox) s.width ≤ q ∧
              q < y * s.width + min (max ax tox) s.width) := by
            intro hmem
            have h2' : (y + 1) * s.width ≤ (y + 1 + j) * s.width :=
              Nat.mul_le_mul_right _ (by omega)
            omega
          have hmid := hq1 q
          rw [if_neg hnotrow] at hmid
          have hrest := (hq2 q).1 ⟨j, by omega, hlo, hhi⟩
          rw [hrest, hmid]
      · intro hnone
        have hnrow0 : ¬ (y * s.width + min (min ax tox) s.width ≤ q ∧
            q < y * s.width + min (max ax tox) s.width) := by
          have := hnone 0 (by omega)
          simpa using this
        have hrest : ∀ i, i < n →
            ¬ ((y + 1 + i) * s.width + min (min ax tox) s.width ≤ q ∧
              q < (y + 1 + i) * s.width + min (max ax tox) s.width) := by
          intro i hi
          have := hnone (i + 1) (by omega)
          rw [show y + (i + 1) = y + 1 + i from by omega] at this
          exact this
        have hs1q := (hq2 q).2 hrest
        have hmid := hq1 q
        rw [if_neg hnrow0] at hmid
        rw [hs1q, hmid]

theorem invertRect_eq (s : Surface) (pt pt2 : Nat × Nat) :
    invertRect s pt pt2 =
      invertRows s pt.1 pt2.1 (min pt.2 pt2.2)
        (max pt.2 pt2.2 - min pt.2 pt2.2) := by
  simp only [invertRect, if_ge_eq_min, if_ge_eq_max]

theorem surfaceExt {a b : Surface} (hw : a.width = b.width)
    (hh : a.height = b.height) (hb : a.backbuffer = b.backbuffer) : a = b := by
  cases a
  cases b
  dsimp only at hw hh hb
  rw [hw, hh, hb]

/-- Claim C7 (confirmed): applying invert_rect twice over the same region
returns the surface to its exact initial state — whenever both calls
complete (partial correctness: the hypotheses record the two completed
calls), every pixel, the dimensions, everything is restored, because each
pass XORs exactly the same clipped region with 0xFF. -/
theorem c7_invert_involutive (s s1 s2 : Surface) (pt pt2 : Nat × Nat)
    (h1 : invertRect s pt pt2 = some s1)
    (h2 : invertRect s1 pt pt2 = some s2) : s2 = s := by
  rw [invertRect_eq] at h1 h2
  obtain ⟨hw1, hh1, hlen1, hq1⟩ := invertRows_some _ _ _ _ _ _ h1
  obtain ⟨hw2, hh2, hlen2, hq2⟩ := invertRows_some _ _ _ _ _ _ h2
  rw [hw1] at hq2
  have hbuf : s2.backbuffer = s.backbuffer := by
    apply List.ext_getElem?
    intro q
    by_cases hmem : ∃ i, i < max pt.2 pt2.2 - min pt.2 pt2.2 ∧
        (min pt.2 pt2.2 + i) * s.width + min (min pt.1 pt2.1) s.width ≤ q ∧
        q < (min pt.2 pt2.2 + i) * s.width + min (max pt.1 pt2.1) s.width
    · have e2 := (hq2 q).1 hmem
      have e1 := (hq1 q).1 hmem
      rw [e2, e1]
      cases ho : s.backbuffer[q]? with
      | none => rfl
      | some v =>
        simp only [Option.map_some']
        congr 1
        rw [Nat.xor_assoc, Nat.xor_self, Nat.xor_zero]
    · have hall : ∀ i, i < max pt.2 pt2.2 - min pt.2 pt2.2 →
          ¬ ((min pt.2 pt2.2 + i) * s.width + min (min pt.1 pt2.1) s.width ≤ q ∧
            q < (min pt.2 pt2.2 + i) * s.width + min (max pt.1 pt2.1) s.width) :=
        fun i hi hc => hmem ⟨i, hi, hc⟩
      have e2 := (hq2 q).2 hall
      have e1 := (hq1 q).2 hall
      rw [e2, e1]
  exact surfaceExt (hw2.trans hw1) (hh2.trans hh1) hbuf

/-- Witness for c7_invert_involutive: a concrete 2x2 surface with mixed
byte values, inverted twice over the full region, returns to its initial
state. -/
theorem c7_witness :
    invertRect (⟨2, 2, [0, 255, 7, 100]⟩ : Surface) (0, 0) (2, 2) =
      some ⟨2, 2, [255, 0, 248, 155]⟩ ∧
    invertRect (⟨2, 2, [255, 0, 248, 155]⟩ : Surface) (0, 0) (2, 2) =
      some ⟨2, 2, [0, 255, 7, 100]⟩ ∧
    (⟨2, 2, [0, 255, 7, 100]⟩ : Surface) = ⟨2, 2, [0, 255, 7, 100]⟩ :=
  ⟨by decide, by decide,
    c7_invert_involutive ⟨2, 2, [0, 255, 7, 100]⟩ ⟨2, 2, [255, 0, 248, 155]⟩
      ⟨2, 2, [0, 255, 7, 100]⟩ (0, 0) (2, 2) (by decide) (by decide)⟩

theorem copyLoop_spec (bits : List Nat) (f : Nat) (n : Nat) :
    ∀ (so ix w : Nat) (buf : List Nat) (d : Nat),
      so < bits.length → ix < 16 →
      d + min n (16 * (bits.length - so) - ix) ≤ buf.length →
      ∃ b, copyLoop bits f so ix w buf d n =
          some (b, min n (16 * (bits.length - so) - ix)) ∧
        b.length = buf.length ∧
        ∀ q, (q < d ∨ d + min n (16 * (bits.length - so) - ix) ≤ q) →
          b[q]? = buf[q]? := by
  induction n with
  | zero =>
    intro so ix w buf d hso hix hlen
    refine ⟨buf, ?_, rfl, fun q _ => rfl⟩
    simp [copyLoop]
  | succ n ih =>
    intro so ix w buf d hso hix hlen
    have havail : 1 ≤ 16 * (bits.length - so) - ix := by omega
    have hminpos : 1 ≤ min (n + 1) (16 * (bits.length - so) - ix) := by omega
    have hd : d < buf.length := by omega
    have hdb : buf[d]? = some buf[d] := List.getElem?_eq_getElem hd
    simp only [copyLoop]
    rw [hdb]
    simp only [Option.some_bind]
    by_cases hix15 : ix = 15
    · subst hix15
      rw [if_pos rfl]
      by_cases hsoend : so + 1 = bits.length
      · rw [if_pos hsoend]
        have hmin1 : min (n + 1) (16 * (bits.length - so) - 15) = 1 := by omega
        refine ⟨buf.set d (copyPen f w buf[d]), ?_, List.length_set buf d _, ?_⟩
        · rw [hmin1]
        · intro q hq
          rw [hmin1] at hq
          rw [List.getElem?_set, if_neg (by omega)]
      · rw [if_neg hsoend]
        have hso1 : so + 1 < bits.length := by omega
        have hnw : bits[so + 1]? = some bits[so + 1] :=
          List.getElem?_eq_getElem hso1
        rw [hnw]
        simp only [Option.some_bind]
        have hminrec : min (n + 1) (16 * (bits.length - so) - 15) =
            min n (16 * (bits.length - (so + 1)) - 0) + 1 := by omega
        obtain ⟨b, hb, hblen, hbframe⟩ := ih (so + 1) 0 bits[so + 1]
          (buf.set d (copyPen f w buf[d])) (d + 1) hso1 (by omega)
          (by rw [List.length_set]; omega)
        refine ⟨b, ?_, ?_, ?_⟩
        · rw [hb]
          simp only [Option.map_some']
          rw [hminrec]
        · rw [hblen, List.length_set]
        · intro q hq
          have hfr := hbframe q (by omega)
          rw [hfr, List.getElem?_set, if_neg (by omega)]
    · rw [if_neg hix15]
      have hminrec : min (n + 1) (16 * (bits.length - so) - ix) =
          min n (16 * (bits.length - so) - (ix + 1)) + 1 := by omega
      obtain ⟨b, hb, hblen, hbframe⟩ := ih so (ix + 1) (w >>> 1)
        (buf.set d (copyPen f w buf[d])) (d + 1) hso (by omega)
        (by rw [List.length_set]; omega)
      refine ⟨b, ?_, ?_, ?_⟩
      · rw [hb]
        simp only [Option.map_some']
        rw [hminrec]
      · rw [hblen, List.length_set]
      · intro q hq
        have hfr := hbframe q (by omega)
        rw [hfr, List.getElem?_set, if_neg (by omega)]

/-- Claim C5 (corrected), amended - for every copy_line call whose
initial source word index `sy*ceil(srcW/16) + sx/16` lies inside
from_bits, with `from.x ≤ src_width` and `to.x ≤ surface.width` (the
cases outside these bounds can panic, see the counterexample), and whose
destination span fits the backing store: the call completes, and the
number of pixels written is `min(width, src_width - from.x,
surface.width - to.x)` further capped by the bits remaining in the
source buffer (the traversal stops with the last source word and never
reads past it); every byte outside the written destination span is
unchanged.  The no-op boundary cases `from.x = src_width` and
`to.x = surface.width` are the instances where this count is zero. -/
theorem c5_amended_copy_count
    (s : Surface) (sx sy srcW : Nat) (bits : List Nat) (dx dy width f : Nat)
    (h1 : sx ≤ srcW)
    (h2 : sy * ((srcW + 15) / 16) + sx / 16 < bits.length)
    (h3 : dx ≤ s.width)
    (h4 : dy * s.width + dx +
        min (min (min width (srcW - sx)) (min width (s.width - dx)))
          (16 * (bits.length - (sy * ((srcW + 15) / 16) + sx / 16)) - sx % 16) ≤
        s.backbuffer.length) :
    ∃ buf, copyLineRun s (sx, sy) srcW bits (dx, dy) width f =
        some (⟨s.width, s.height, buf⟩,
          min (min (min width (srcW - sx)) (min width (s.width - dx)))
            (16 * (bits.length - (sy * ((srcW + 15) / 16) + sx / 16)) - sx % 16)) ∧
      buf.length = s.backbuffer.length ∧
      ∀ q, (q < dy * s.width + dx ∨
          dy * s.width + dx +
            min (min (min width (srcW - sx)) (min width (s.width - dx)))
              (16 * (bits.length - (sy * ((srcW + 15) / 16) + sx / 16)) -
                sx % 16) ≤ q) →
        buf[q]? = s.backbuffer[q]? := by
  have hw0 : bits[sy * ((srcW + 15) / 16) + sx / 16]? =
      some bits[sy * ((srcW + 15) / 16) + sx / 16] := List.getElem?_eq_getElem h2
  simp only [copyLineRun]
  rw [hw0]
  simp only [Option.some_bind]
  rw [if_neg (by omega), if_neg (by omega), and15_eq_mod]
  obtain ⟨b, hb, hblen, hbframe⟩ := copyLoop_spec bits f
    (min (min width (srcW - sx)) (min width (s.width - dx)))
    (sy * ((srcW + 15) / 16) + sx / 16) (sx % 16) _ s.backbuffer
    (dy * s.width + dx) h2 (by omega) h4
  rw [hb]
  simp only [Option.map_some']
  exact ⟨b, rfl, hblen, hbframe⟩

/-- Witness for c5_amended_copy_count: copying 3 pixels of a 16-wide
one-word source into row 1 of a 4x4 surface; the count evaluates to 3. -/
theorem c5_witness :
    ∃ buf, copyLineRun ⟨4, 4, List.replicate 16 0⟩ (0, 0) 16 [10] (1, 1) 3 14 =
        some (⟨4, 4, buf⟩,
          min (min (min 3 (16 - 0)) (min 3 (4 - 1)))
            (16 * (1 - (0 * ((16 + 15) / 16) + 0 / 16)) - 0 % 16)) ∧
      buf.length = (List.replicate 16 (0 : Nat)).length ∧
      ∀ q, (q < 1 * 4 + 1 ∨
          1 * 4 + 1 +
            min (min (min 3 (16 - 0)) (min 3 (4 - 1)))
              (16 * (1 - (0 * ((16 + 15) / 16) + 0 / 16)) - 0 % 16) ≤ q) →
        buf[q]? = (List.replicate 16 (0 : Nat))[q]? :=
  c5_amended_copy_count ⟨4, 4, List.replicate 16 0⟩ 0 0 16 [10] 1 1 3 14
    (by decide) (by decide) (by decide) (by decide)

theorem twoTone_set {l : List Nat} {i v : Nat} (h : twoTone l)
    (hv : v = 0 ∨ v = 255) : twoTone (l.set i v) := by
  intro x hx
  rcases List.mem_or_eq_of_mem_set hx with hm | he
  · exact h x hm
  · rw [he]
    exact hv

theorem hlineLoop_twoTone (n : Nat) :
    ∀ (buf : List Nat) (off p : Nat) (b : List Nat), twoTone buf →
      hlineLoop buf off p n = some b → twoTone b := by
  induction n with
  | zero =>
    intro buf off p b htwo h
    simp only [hlineLoop] at h
    injection h with h
    rw [← h]
    exact htwo
  | succ n ih =>
    intro buf off p b htwo h
    simp only [hlineLoop] at h
    cases hset : setChecked buf off (if p &&& 1 ≠ 0 then 255 else 0) with
    | none => rw [hset] at h; exact Option.noConfusion h
    | some b1 =>
      rw [hset] at h
      simp only [Option.some_bind] at h
      obtain ⟨-, hb1⟩ := setChecked_eq_some hset
      refine ih _ _ _ _ ?_ h
      rw [hb1]
      exact twoTone_set htwo (by split <;> simp)

theorem vlineLoop_twoTone (n : Nat) :
    ∀ (buf : List Nat) (off w p : Nat) (b : List Nat), twoTone buf →
      vlineLoop buf off w p n = some b → twoTone b := by
  induction n with
  | zero =>
    intro buf off w p b htwo h
    simp only [vlineLoop] at h
    injection h with h
    rw [← h]
    exact htwo
  | succ n ih =>
    intro buf off w p b htwo h
    simp only [vlineLoop] at h
    cases hset : setChecked buf off (if p &&& 1 ≠ 0 then 255 else 0) with
    | none => rw [hset] at h; exact Option.noConfusion h
    | some b1 =>
      rw [hset] at h
      simp only [Option.some_bind] at h
      obtain ⟨-, hb1⟩ := setChecked_eq_some hset
      refine ih _ _ _ _ _ ?_ h
      rw [hb1]
      exact twoTone_set htwo (by split <;> simp)

theorem invertLoop_twoTone (n : Nat) :
    ∀ (buf : List Nat) (off : Nat) (b : List Nat), twoTone buf →
      invertLoop buf off n = some b → twoTone b := by
  induction n with
  | zero =>
    intro buf off b htwo h
    simp only [invertLoop] at h
    injection h with h
    rw [← h]
    exact htwo
  | succ n ih =>
    intro buf off b htwo h
    simp only [invertLoop] at h
    cases hget : buf[off]? with
    | none => rw [hget] at h; exact Option.noConfusion h
    | some v =>
      rw [hget] at h
      simp only [Option.some_bind] at h
      refine ih _ _ _ ?_ h
      apply twoTone_set htwo
      rcases htwo v (List.getElem?_mem hget) with rfl | rfl
      · right; rfl
      · left; rfl

theorem copyPen_twoTone (f a b : Nat) :
    copyPen f a b = 0 ∨ copyPen f a b = 255 := by
  unfold copyPen pens
  split <;> simp

theorem copyLoop_twoTone (bits : List Nat) (f : Nat) (n : Nat) :
    ∀ (so ix w : Nat) (buf : List Nat) (d : Nat) (b : List Nat) (k : Nat),
      twoTone buf → copyLoop bits f so ix w buf d n = some (b, k) →
      twoTone b := by
  induction n with
  | zero =>
    intro so ix w buf d b k htwo h
    simp only [copyLoop, Option.some.injEq, Prod.mk.injEq] at h
    rw [← h.1]
    exact htwo
  | succ n ih =>
    intro so ix w buf d b k htwo h
    simp only [copyLoop] at h
    cases hdb : buf[d]? with
    | none => rw [hdb] at h; exact Option.noConfusion h
    | some db =>
      rw [hdb] at h
      simp only [Option.some_bind] at h
      have htwo1 : twoTone (buf.set d (copyPen f w db)) :=
        twoTone_set htwo (copyPen_twoTone f w db)
      by_cases hix15 : ix = 15
      · rw [if_pos hix15] at h
        by_cases hsoend : so + 1 = bits.length
        · rw [if_pos hsoend] at h
          simp only [Option.some.injEq, Prod.mk.injEq] at h
          rw [← h.1]
          exact htwo1
        · rw [if_neg hsoend] at h
          cases hnw : bits[so + 1]? with
          | none => rw [hnw] at h; exact Option.noConfusion h
          | some nw =>
            rw [hnw] at h
            simp only [Option.some_bind] at h
            cases hrec : copyLoop bits f (so + 1) 0 nw
                (buf.set d (copyPen f w db)) (d + 1) n with
            | none => rw [hrec] at h; exact Option.noConfusion h
            | some r =>
              rw [hrec] at h
              simp only [Option.map_some', Option.some.injEq, Prod.mk.injEq] at h
              have := ih _ _ _ _ _ r.1 r.2 htwo1 (by rw [hrec])
              rw [← h.1]
              exact this
      · rw [if_neg hix15] at h
        cases hrec : copyLoop bits f so (ix + 1) (w >>> 1)
            (buf.set d (copyPen f w db)) (d + 1) n with
        | none => rw [hrec] at h; exact Option.noConfusion h
        | some r =>
          rw [hrec] at h
          simp only [Option.map_some', Option.some.injEq, Prod.mk.injEq] at h
          have := ih _ _ _ _ _ r.1 r.2 htwo1 (by rw [hrec])
          rw [← h.1]
          exact this

theorem hline_twoTone (s : Surface) (pt : Nat × Nat) (tox p : Nat)
    (s' : Surface) (htwo : twoTone s.backbuffer)
    (h : hline s pt tox p = some s') : twoTone s'.backbuffer := by
  obtain ⟨x0, y⟩ := pt
  rw [hline_eq] at h
  cases hl : hlineLoop s.backbuffer (y * s.width + min (min x0 tox) s.width)
      (rot16 p (min (min x0 tox) s.width &&& 15))
      (min (max x0 tox) s.width - min (min x0 tox) s.width) with
  | none => rw [hl] at h; exact Option.noConfusion h
  | some b =>
    rw [hl] at h
    simp only [Option.map_some', Option.some.injEq] at h
    rw [← h]
    exact hlineLoop_twoTone _ _ _ _ _ htwo hl

theorem vline_twoTone (s : Surface) (pt : Nat × Nat) (tox p : Nat)
    (s' : Surface) (htwo : twoTone s.backbuffer)
    (h : vline s pt tox p = some s') : twoTone s'.backbuffer := by
  simp only [vline] at h
  split at h
  · injection h with h
    rw [← h]
    exact htwo
  · rcases Option.map_eq_some'.mp h with ⟨b, hb, hmk⟩
    rw [← hmk]
    exact vlineLoop_twoTone _ _ _ _ _ _ htwo hb

theorem rectRows_twoTone (n : Nat) :
    ∀ (s : Surface) (ax tox : Nat) (pat : Nat → Nat) (y : Nat) (s' : Surface),
      twoTone s.backbuffer → rectRows s ax tox pat y n = some s' →
      twoTone s'.backbuffer := by
  induction n with
  | zero =>
    intro s ax tox pat y s' htwo h
    simp only [rectRows] at h
    injection h with h
    rw [← h]
    exact htwo
  | succ n ih =>
    intro s ax tox pat y s' htwo h
    simp only [rectRows] at h
    cases hh : hline s (ax, y) tox (pat (y &&& 15)) with
    | none => rw [hh] at h; exact Option.noConfusion h
    | some s1 =>
      rw [hh] at h
      simp only [Option.some_bind] at h
      exact ih _ _ _ _ _ _ (hline_twoTone _ _ _ _ _ htwo hh) h

theorem rect_twoTone (s : Surface) (pt pt2 : Nat × Nat) (pat : Nat → Nat)
    (s' : Surface) (htwo : twoTone s.backbuffer)
    (h : rect s pt pt2 pat = some s') : twoTone s'.backbuffer := by
  simp only [rect] at h
  exact rectRows_twoTone _ _ _ _ _ _ _ htwo h

theorem frame_twoTone (s : Surface) (pt pt2 : Nat × Nat) (p : Nat)
    (s' : Surface) (htwo : twoTone s.backbuffer)
    (h : frame s pt pt2 p = some s') : twoTone s'.backbuffer := by
  simp only [frame] at h
  set l0 := if pt.1 > pt2.1 then pt2.1 else pt.1 with hl0
  set r0 := if pt.1 > pt2.1 then pt.1 else pt2.1 with hr0
  set t0 := if pt.2 > pt2.2 then pt2.2 else pt.2 with ht0
  set b0 := if pt.2 > pt2.2 then pt.2 else pt2.2 with hbb0
  cases h1 : hline s (l0, t0) r0 p with
  | none => rw [h1] at h; exact Option.noConfusion h
  | some s1 =>
    rw [h1] at h
    simp only [Option.some_bind] at h
    have ht1 := hline_twoTone _ _ _ _ _ htwo h1
    by_cases hb0 : b0 = 0
    · rw [if_pos hb0] at h
      exact Option.noConfusion h
    · rw [if_neg hb0] at h
      cases h2 : hline s1 (l0, b0 - 1) r0 p with
      | none => rw [h2] at h; exact Option.noConfusion h
      | some s2 =>
        rw [h2] at h
        simp only [Option.some_bind] at h
        have ht2 := hline_twoTone _ _ _ _ _ ht1 h2
        cases h3 : vline s2 (l0, t0) b0 p with
        | none => rw [h3] at h; exact Option.noConfusion h
        | some s3 =>
          rw [h3] at h
          simp only [Option.some_bind] at h
          have ht3 := vline_twoTone _ _ _ _ _ ht2 h3
          by_cases hr00 : r0 = 0
          · rw [if_pos hr00] at h
            exact Option.noConfusion h
          · rw [if_neg hr00] at h
            exact vline_twoTone _ _ _ _ _ ht3 h

theorem invertLine_twoTone (s : Surface) (pt : Nat × Nat) (tox : Nat)
    (s' : Surface) (htwo : twoTone s.backbuffer)
    (h : invertLine s pt tox = some s') : twoTone s'.backbuffer := by
  obtain ⟨x0, y⟩ := pt
  rw [invertLine_eq] at h
  rcases Option.map_eq_some'.mp h with ⟨b, hb, hmk⟩
  rw [← hmk]
  exact invertLoop_twoTone _ _ _ _ htwo hb

theorem invertRows_twoTone (n : Nat) :
    ∀ (s : Surface) (ax tox y : Nat) (s' : Surface),
      twoTone s.backbuffer → invertRows s ax tox y n = some s' →
      twoTone s'.backbuffer := by
  induction n with
  | zero =>
    intro s ax tox y s' htwo h
    simp only [invertRows] at h
    injection h with h
    rw [← h]
    exact htwo
  | succ n ih =>
    intro s ax tox y s' htwo h
    simp only [invertRows] at h
    cases hh : invertLine s (ax, y) tox with
    | none => rw [hh] at h; exact Option.noConfusion h
    | some s1 =>
      rw [hh] at h
      simp only [Option.some_bind] at h
      exact ih _ _ _ _ _ (invertLine_twoTone _ _ _ _ htwo hh) h

theorem invertRect_twoTone (s : Surface) (pt pt2 : Nat × Nat)
    (s' : Surface) (htwo : twoTone s.backbuffer)
    (h : invertRect s pt pt2 = some s') : twoTone s'.backbuffer := by
  simp only [invertRect] at h
  exact invertRows_twoTone _ _ _ _ _ _ htwo h

theorem copyLine_twoTone (s : Surface) (src : Nat × Nat) (srcW : Nat)
    (bits : List Nat) (dst : Nat × Nat) (width f : Nat) (s' : Surface)
    (htwo : twoTone s.backbuffer)
    (h : copyLine s src srcW bits dst width f = some s') :
    twoTone s'.backbuffer := by
  simp only [copyLine] at h
  rcases Option.map_eq_some'.mp h with ⟨pr, hpr, hfst⟩
  simp only [copyLineRun] at hpr
  cases hw0 : bits[src.2 * ((srcW + 15) / 16) + src.1 / 16]? with
  | none => rw [hw0] at hpr; exact Option.noConfusion hpr
  | some w0 =>
    rw [hw0] at hpr
    simp only [Option.some_bind] at hpr
    split at hpr
    · exact Option.noConfusion hpr
    · split at hpr
      · exact Option.noConfusion hpr
      · rcases Option.map_eq_some'.mp hpr with ⟨r, hr, hmk⟩
        have hb := copyLoop_twoTone bits f _ _ _ _ _ _ r.1 r.2 htwo (by rw [hr])
        rw [← hfst, ← hmk]
        exact hb

instance twoToneDecidable (l : List Nat) : Decidable (twoTone l) :=
  inferInstanceAs (Decidable (∀ x ∈ l, x = 0 ∨ x = 255))

theorem drawPoint_twoTone (s : Surface) (pt : Nat × Nat) (pen : Nat)
    (s' : Surface) (htwo : twoTone s.backbuffer)
    (h : drawPoint s pt pen = some s') : twoTone s'.backbuffer := by
  simp only [drawPoint] at h
  by_cases hc : pt.1 ≥ s.width ∨ pt.2 ≥ s.height
  · rw [if_pos hc] at h
    injection h with h
    rw [← h]
    exact htwo
  · rw [if_neg hc] at h
    rcases Option.map_eq_some'.mp h with ⟨b, hb, hmk⟩
    obtain ⟨-, hbe⟩ := setChecked_eq_some hb
    rw [← hmk]
    show twoTone b
    rw [hbe]
    exact twoTone_set htwo (by split <;> simp)

/-- Claim C9 (confirmed): every drawing/blitting operation preserves the
two-tone invariant — starting from a surface whose bytes are all 0 or
255, any completed draw_point, hline, vline, rect, frame, invert_line,
invert_rect or copy_line leaves every byte 0 or 255, because the pattern
fills write only 0/255, the combine table resolves every entry to 0/255,
and XOR with 0xFF maps {0,255} to itself. -/
theorem c9_two_tone :
    (∀ (s : Surface) (pt : Nat × Nat) (pen : Nat) (s' : Surface),
      twoTone s.backbuffer → drawPoint s pt pen = some s' →
      twoTone s'.backbuffer) ∧
    (∀ (s : Surface) (pt : Nat × Nat) (tox p : Nat) (s' : Surface),
      twoTone s.backbuffer → hline s pt tox p = some s' →
      twoTone s'.backbuffer) ∧
    (∀ (s : Surface) (pt : Nat × Nat) (tox p : Nat) (s' : Surface),
      twoTone s.backbuffer → vline s pt tox p = some s' →
      twoTone s'.backbuffer) ∧
    (∀ (s : Surface) (pt pt2 : Nat × Nat) (pat : Nat → Nat) (s' : Surface),
      twoTone s.backbuffer → rect s pt pt2 pat = some s' →
      twoTone s'.backbuffer) ∧
    (∀ (s : Surface) (pt pt2 : Nat × Nat) (p : Nat) (s' : Surface),
      twoTone s.backbuffer → frame s pt pt2 p = some s' →
      twoTone s'.backbuffer) ∧
    (∀ (s : Surface) (pt : Nat × Nat) (tox : Nat) (s' : Surface),
      twoTone s.backbuffer → invertLine s pt tox = some s' →
      twoTone s'.backbuffer) ∧
    (∀ (s : Surface) (pt pt2 : Nat × Nat) (s' : Surface),
      twoTone s.backbuffer → invertRect s pt pt2 = some s' →
      twoTone s'.backbuffer) ∧
    (∀ (s : Surface) (src : Nat × Nat) (srcW : Nat) (bits : List Nat)
        (dst : Nat × Nat) (width f : Nat) (s' : Surface),
      twoTone s.backbuffer → copyLine s src srcW bits dst width f = some s' →
      twoTone s'.backbuffer) :=
  ⟨fun s pt pen s' => drawPoint_twoTone s pt pen s',
   fun s pt tox p s' => hline_twoTone s pt tox p s',
   fun s pt tox p s' => vline_twoTone s pt tox p s',
   fun s pt pt2 pat s' => rect_twoTone s pt pt2 pat s',
   fun s pt pt2 p s' => frame_twoTone s pt pt2 p s',
   fun s pt tox s' => invertLine_twoTone s pt tox s',
   fun s pt pt2 s' => invertRect_twoTone s pt pt2 s',
   fun s src srcW bits dst width f s' =>
     copyLine_twoTone s src srcW bits dst width f s'⟩

/-- Witness for c9_two_tone: a concrete two-tone 2x2 surface stays
two-tone across a completed hline call. -/
theorem c9_witness : twoTone [255, 0, 0, 0] :=
  c9_two_tone.2.1 ⟨2, 2, [0, 255, 0, 0]⟩ (0, 0) 2 1 ⟨2, 2, [255, 0, 0, 0]⟩
    (by decide) (by decide)

/-- Glyph sheet used by the claim C1 fixtures: 2 glyphs of width 4 in an
8-pixel-wide sheet, 2 rows, big-endian packed (leftmost pixel = bit 15);
glyph 0's top row is 1,0,1,0 and its bottom row is blank. -/
def cexFont : Font :=
  { bits := [40960, 0], leftEdges := [0, 4, 8], width := 8,
    ascender := 1, height := 2 }

/-- Claim C1 fixture: context whose glyph box (rows 0..2) lies entirely
above top_margin = 3. -/
def c1TcClipped : TextContext :=
  { font := cexFont, left := 1, baseline := 1, strikeFn := 14,
    leftMargin := 0, rightMargin := 8, topMargin := 3, bottomMargin := 6 }

/-- Claim C1 fixture: 8x6 blank surface. -/
def c1Surface : Surface := ⟨8, 6, List.replicate 48 0⟩

/-- Claim C1 (corrected), counterexample: `simple_put_char` with a glyph
whose vertical extent (rows 0..2, baseline 1, ascender 1, height 2) falls
entirely above top_margin = 3 takes the early `return` — it draws nothing
AND leaves `left` unchanged at 1, whereas the claim demands that `left`
still advance by the glyph's full unclipped width 4 (to 5). -/
theorem c1_counterexample :
    simplePutChar c1TcClipped c1Surface 0 = some (c1TcClipped, c1Surface) ∧
    c1TcClipped.left = 1 ∧ (1 : Nat) ≠ 1 + 4 := by
  refine ⟨by decide, rfl, by norm_num⟩

/-- Claim C1 (corrected), amended: in every completed simple_put_char
call, `left` advances by the glyph's unclipped width `cr - cl` exactly
when both the clipped vertical span and the clipped horizontal span are
nonempty; when either clipped span is empty the call returns early,
drawing nothing and leaving `left` unchanged. -/
theorem c1_amended_left_advance
    (tc : TextContext) (s : Surface) (chr : Nat) (tc' : TextContext)
    (s' : Surface) (cl cr : Nat)
    (hrun : simplePutChar tc s chr = some (tc', s'))
    (hcl : tc.font.leftEdges[chr]? = some cl)
    (hcr : tc.font.leftEdges[chr + 1]? = some cr) :
    tc'.left =
      if max (tc.baseline - tc.font.ascender) tc.topMargin ≥
          min tc.bottomMargin
            (tc.baseline - tc.font.ascender + tc.font.height) ∨
        max tc.leftMargin tc.left ≥
          min tc.rightMargin (tc.left + (cr - cl))
      then tc.left else tc.left + (cr - cl) := by
  simp only [simplePutChar] at hrun
  rw [hcl] at hrun
  simp only [Option.some_bind] at hrun
  by_cases hba : tc.baseline < tc.font.ascender
  · rw [if_pos hba] at hrun
    exact Option.noConfusion hrun
  · rw [if_neg hba] at hrun
    by_cases hov1 : tc.baseline - tc.font.ascender + tc.font.height > 65535
    · rw [if_pos hov1] at hrun
      exact Option.noConfusion hrun
    · rw [if_neg hov1] at hrun
      by_cases hc1 : max (tc.baseline - tc.font.ascender) tc.topMargin ≥
          min tc.bottomMargin (tc.baseline - tc.font.ascender + tc.font.height)
      · rw [if_pos hc1] at hrun
        injection hrun with hrun
        injection hrun with ha hb
        rw [← ha, if_pos (Or.inl hc1)]
      · rw [if_neg hc1] at hrun
        by_cases hu8 : chr + 1 > 255
        · rw [if_pos hu8] at hrun
          exact Option.noConfusion hrun
        · rw [if_neg hu8] at hrun
          rw [hcr] at hrun
          simp only [Option.some_bind] at hrun
          by_cases hrl : cr < cl
          · rw [if_pos hrl] at hrun
            exact Option.noConfusion hrun
          · rw [if_neg hrl] at hrun
            by_cases hov2 : tc.left + (cr - cl) > 65535
            · rw [if_pos hov2] at hrun
              exact Option.noConfusion hrun
            · rw [if_neg hov2] at hrun
              by_cases hc2 : max tc.leftMargin tc.left ≥
                  min tc.rightMargin (tc.left + (cr - cl))
              · rw [if_pos hc2] at hrun
                injection hrun with hrun
                injection hrun with ha hb
                rw [← ha, if_pos (Or.inr hc2)]
              · rw [if_neg hc2] at hrun
                by_cases hov3 : cl + (max tc.leftMargin tc.left - tc.left) > 65535
                · rw [if_pos hov3] at hrun
                  exact Option.noConfusion hrun
                · rw [if_neg hov3] at hrun
                  rcases Option.map_eq_some'.mp hrun with ⟨s1, hs1, hmk⟩
                  injection hmk with ha hb
                  rw [← ha,
                    if_neg (show ¬ _ from by
                      push_neg
                      exact ⟨lt_of_not_ge hc1, lt_of_not_ge hc2⟩)]

/-- Claim C1 fixture: context whose glyph box is visible. -/
def c1TcVisible : TextContext :=
  { font := cexFont, left := 1, baseline := 2, strikeFn := 14,
    leftMargin := 0, rightMargin := 8, topMargin := 0, bottomMargin := 6 }

/-- Claim C1 fixture: the surface after drawing glyph 0 at (1,1). -/
def c1SurfaceDrawn : Surface :=
  ⟨8, 6, List.replicate 9 0 ++ [255, 0, 255, 0] ++ List.replicate 35 0⟩

/-- Witness for c1_amended_left_advance: a completed, visible
simple_put_char call whose cursor advances from 1 to 5 (width 4). -/
theorem c1_witness :
    simplePutChar c1TcVisible c1Surface 0 =
      some ({ c1TcVisible with left := 5 }, c1SurfaceDrawn) ∧
    ({ c1TcVisible with left := 5 } : TextContext).left =
      (if max (c1TcVisible.baseline - c1TcVisible.font.ascender)
            c1TcVisible.topMargin ≥
          min c1TcVisible.bottomMargin
            (c1TcVisible.baseline - c1TcVisible.font.ascender +
              c1TcVisible.font.height) ∨
        max c1TcVisible.leftMargin c1TcVisible.left ≥
          min c1TcVisible.rightMargin (c1TcVisible.left + (4 - 0))
      then c1TcVisible.left else c1TcVisible.left + (4 - 0)) := by
  have hrun : simplePutChar c1TcVisible c1Surface 0 =
      some ({ c1TcVisible with left := 5 }, c1SurfaceDrawn) := by decide
  exact ⟨hrun, c1_amended_left_advance c1TcVisible c1Surface 0 _ _ 0 4 hrun
    (by decide) (by decide)⟩
